import Mathlib

/-!
Shallow embedding of the reconciliation engine of the Labor-Report-Tool
repository (source files: streamlit_app.py and discrepancy_checker.py).

Modelling conventions, used throughout:
* Python/pandas floating-point values are modelled as rationals (ℚ); IEEE-754
  rounding is not modelled, so the literal 1e-6 is the rational 1/1000000.
* A pandas NaN cell is modelled as Option.none of the corresponding type.
* pandas groupby sorts group keys and merge(how = outer) sorts join keys; the
  embedding keeps first-appearance (respectively left-then-unmatched-right)
  order instead.  None of the verified properties depend on row order, and the
  within-group order of rows (which the aggregations "first" depend on) is the
  input order in both pandas and this embedding.
-/

set_option maxRecDepth 10000

/-- Sum of a list of rationals. -/
def qsum (l : List ℚ) : ℚ := l.foldr (fun a b => a + b) 0

/-- Sum of an optional-valued column; NaN entries are skipped, as in the
pandas Series.sum default (skipna). -/
def optSum (l : List (Option ℚ)) : ℚ := qsum (l.filterMap id)

/-- Python str.strip() on a character list: removes leading and trailing
whitespace.  (Python also strips \x0b and \x0c, which Char.isWhitespace does
not cover; no verified property involves those characters.) -/
def pyStrip (cs : List Char) : List Char :=
  ((cs.dropWhile Char.isWhitespace).reverse.dropWhile Char.isWhitespace).reverse

/-- Python str.strip() on a String. -/
def pyStripStr (s : String) : String := ⟨pyStrip s.data⟩

/-- The distinct keys of a list, in first-appearance order: the set of group
keys produced by a pandas groupby (pandas additionally sorts the keys; key
order is immaterial to every property proved below).  The accumulator holds
the keys already emitted. -/
def dedupKeysAux {κ : Type} [DecidableEq κ] (seen : List κ) : List κ → List κ
  | [] => []
  | k :: t => if k ∈ seen then dedupKeysAux seen t else k :: dedupKeysAux (k :: seen) t

def dedupKeys {κ : Type} [DecidableEq κ] (l : List κ) : List κ := dedupKeysAux [] l

theorem dedupKeysAux_subset {κ : Type} [DecidableEq κ] :
    ∀ l : List κ, ∀ seen x, x ∈ dedupKeysAux seen l → x ∈ l := by
  intro l
  induction l with
  | nil => simp [dedupKeysAux]
  | cons k t ih =>
    intro seen x hx
    simp only [dedupKeysAux] at hx
    by_cases hk : k ∈ seen
    · rw [if_pos hk] at hx
      exact List.mem_cons_of_mem _ (ih seen x hx)
    · rw [if_neg hk] at hx
      rcases List.mem_cons.mp hx with rfl | hx
      · exact List.mem_cons_self _ _
      · exact List.mem_cons_of_mem _ (ih (k :: seen) x hx)

theorem dedupKeysAux_not_mem_seen {κ : Type} [DecidableEq κ] :
    ∀ l : List κ, ∀ seen x, x ∈ dedupKeysAux seen l → x ∉ seen := by
  intro l
  induction l with
  | nil => simp [dedupKeysAux]
  | cons k t ih =>
    intro seen x hx
    simp only [dedupKeysAux] at hx
    by_cases hk : k ∈ seen
    · rw [if_pos hk] at hx
      exact ih seen x hx
    · rw [if_neg hk] at hx
      rcases List.mem_cons.mp hx with rfl | hx
      · exact hk
      · intro hxs
        exact ih (k :: seen) x hx (List.mem_cons_of_mem _ hxs)

theorem dedupKeysAux_nodup {κ : Type} [DecidableEq κ] :
    ∀ l : List κ, ∀ seen, (dedupKeysAux seen l).Nodup := by
  intro l
  induction l with
  | nil => simp [dedupKeysAux]
  | cons k t ih =>
    intro seen
    simp only [dedupKeysAux]
    by_cases hk : k ∈ seen
    · rw [if_pos hk]
      exact ih seen
    · rw [if_neg hk]
      refine List.nodup_cons.mpr ⟨fun hmem => ?_, ih (k :: seen)⟩
      exact dedupKeysAux_not_mem_seen t (k :: seen) k hmem (List.mem_cons_self _ _)

theorem mem_dedupKeysAux {κ : Type} [DecidableEq κ] :
    ∀ l : List κ, ∀ seen x, x ∈ l → x ∉ seen → x ∈ dedupKeysAux seen l := by
  intro l
  induction l with
  | nil => simp
  | cons k t ih =>
    intro seen x hx hxs
    simp only [dedupKeysAux]
    by_cases hk : k ∈ seen
    · rw [if_pos hk]
      rcases List.mem_cons.mp hx with rfl | hx
      · exact absurd hk hxs
      · exact ih seen x hx hxs
    · rw [if_neg hk]
      by_cases hxk : x = k
      · exact hxk ▸ List.mem_cons_self _ _
      · rcases List.mem_cons.mp hx with rfl | hx
        · exact absurd rfl hxk
        · refine List.mem_cons_of_mem _ (ih (k :: seen) x hx ?_)
          intro hc
          rcases List.mem_cons.mp hc with rfl | hc
          · exact hxk rfl
          · exact hxs hc

theorem dedupKeys_subset {κ : Type} [DecidableEq κ] :
    ∀ l : List κ, ∀ x, x ∈ dedupKeys l → x ∈ l :=
  fun l x hx => dedupKeysAux_subset l [] x hx

theorem dedupKeys_nodup {κ : Type} [DecidableEq κ] :
    ∀ l : List κ, (dedupKeys l).Nodup :=
  fun l => dedupKeysAux_nodup l []

theorem mem_dedupKeys {κ : Type} [DecidableEq κ] :
    ∀ l : List κ, ∀ x, x ∈ l → x ∈ dedupKeys l :=
  fun l x hx => mem_dedupKeysAux l [] x hx (by simp)

inductive Cell where
  | na : Cell
  | str : String → Cell
  | num : ℚ → Cell
deriving DecidableEq

/-- Numeric value of a digit list read in base 10. -/
def digitsToNat (ds : List Char) : ℕ :=
  ds.foldl (fun n c => 10 * n + (c.toNat - '0'.toNat)) 0

/-- Optional exponent suffix of a float literal: empty, or e/E, an optional
sign and a nonempty digit run ending the string. -/
def parseExp (cs : List Char) : Option ℤ :=
  match cs with
  | [] => some 0
  | e :: t =>
    if e = 'e' ∨ e = 'E' then
      let st : ℤ × List Char :=
        match t with
        | '+' :: u => (1, u)
        | '-' :: u => (-1, u)
        | _ => (1, t)
      let ds := st.2.takeWhile Char.isDigit
      if ds ≠ [] ∧ st.2.dropWhile Char.isDigit = [] then
        some (st.1 * (digitsToNat ds : ℤ))
      else none
    else none

/-- Python float() on an already-stripped character list (see module comment
for the modelled subset of the grammar). -/
def parseFloat (cs : List Char) : Option ℚ :=
  let sg : ℚ × List Char :=
    match cs with
    | '+' :: t => (1, t)
    | '-' :: t => (-1, t)
    | _ => (1, cs)
  let ip := sg.2.takeWhile Char.isDigit
  let r1 := sg.2.dropWhile Char.isDigit
  match r1 with
  | '.' :: r2 =>
    let fp := r2.takeWhile Char.isDigit
    let r3 := r2.dropWhile Char.isDigit
    if ip = [] ∧ fp = [] then none
    else
      (parseExp r3).map fun e =>
        sg.1 * ((digitsToNat ip : ℚ) + (digitsToNat fp : ℚ) / (10 : ℚ) ^ fp.length)
          * (10 : ℚ) ^ e
  | _ =>
    if ip = [] then none
    else (parseExp r1).map fun e => sg.1 * (digitsToNat ip : ℚ) * (10 : ℚ) ^ e

/-- streamlit_app.py to_number: NaN and the empty string coerce to 0.0; a
string is stripped, its commas are removed and the remainder is parsed,
with 0.0 on failure; a numeric value passes through. -/
def to_number (x : Cell) : ℚ :=
  match x with
  | Cell.na => 0
  | Cell.num q => q
  | Cell.str s =>
    let t := pyStrip s.data
    if t = [] then 0
    else
      match parseFloat (t.filter fun c => c ≠ ',') with
      | some q => q
      | none => 0

/-!
## Convergence check (discrepancy_checker.py, line 302; the Totals Validation
block of streamlit_app.py, lines 568-571, uses the same strict comparison)
-/

/-- Status after corrections: MATCH when the absolute difference of the two
corrected totals is strictly below 1e-6. -/
def match_status (a b : ℚ) : String :=
  if |a - b| < 1 / 1000000 then "MATCH" else "MISMATCH"

/-!
## Correction overlay (discrepancy_checker.py, apply_corrections, lines 137-154)

A review row carries the merged comparison columns plus the reviewer fields
Action / MatchWith / CorrectHours added by add_error_scaffold, and the two
effective columns that apply_corrections (re)computes.  Optional fields model
possibly-NaN cells (rows of the non-numeric-EID bucket have no Excel Hours).
-/

structure ReviewRow where
  eid : Option String
  name : Option String
  excelHours : Option ℚ
  payableHours : Option ℚ
  badge : Option String
  last3 : Option String
  lineVal : Option String
  action : String
  matchWith : String
  correctHours : Option ℚ
  excelEffective : Option ℚ
  cresEffective : Option ℚ
deriving DecidableEq

/-- Per-row effect of apply_corrections: the effective columns are recomputed
from the base hour columns, then overridden by CorrectHours on rows whose
Action marks the corresponding side as erroneous. -/
def applyRow (r : ReviewRow) : ReviewRow :=
  let exEff := r.excelHours
  let crEff := r.payableHours
  let crEff2 := if r.action = "Crescent Error" ∧ r.correctHours ≠ none then r.correctHours else crEff
  let exEff2 := if r.action = "PLX Error" ∧ r.correctHours ≠ none then r.correctHours else exEff
  { r with excelEffective := exEff2, cresEffective := crEff2 }

/-- discrepancy_checker.py apply_corrections: returns the corrected PLX total,
the corrected Crescent total, and the table with the effective columns. -/
def apply_corrections (df : List ReviewRow) : ℚ × ℚ × List ReviewRow :=
  let work := df.map applyRow
  (optSum (work.map fun r => r.excelEffective),
   optSum (work.map fun r => r.cresEffective),
   work)

/-- C3: the Correction Overlay is idempotent: applying apply_corrections to
the table produced by a first application, with the reviewer fields unchanged,
returns exactly the same corrected totals and the same per-row effective
values.  The overlay is a pure function of the current field values. -/
theorem c3_overlay_idempotent (df : List ReviewRow) :
    apply_corrections (apply_corrections df).2.2 = apply_corrections df := by
  have hrow : ∀ r, applyRow (applyRow r) = applyRow r := by
    intro r
    simp only [applyRow]
  have hmap : (df.map applyRow).map applyRow = df.map applyRow := by
    rw [List.map_map]
    exact List.map_congr_left fun r _ => hrow r
  simp only [apply_corrections, hmap]

/-- C6 counterexample: numeric coercion does not strip currency symbols.
The cell "$1,234.5" coerces to 0.0, not to 1234.5: only commas are removed
before parsing, and the remaining "$1234.5" fails to parse. -/
theorem c6_counterexample :
    to_number (Cell.str "$1,234.5") = 0 ∧ to_number (Cell.str "$1,234.5") ≠ (1234.5 : ℚ) := by
  have h : to_number (Cell.str "$1,234.5") = 0 := rfl
  refine ⟨h, ?_⟩
  rw [h]
  norm_num

/-- C6 amended: numeric coercion never fails and strips thousands separators
(all commas) — but not currency symbols — from a stripped string before
parsing it as a float; NaN, empty and unparsable cells coerce to 0.0, and a
numeric cell passes through.  In particular "1,234.5" coerces to 1234.5 while
"$1,234.5" coerces to 0.0. -/
theorem c6_amended :
    (∀ s : String, ∀ q : ℚ,
        parseFloat ((pyStrip s.data).filter fun c => c ≠ ',') = some q →
        to_number (Cell.str s) = q) ∧
    (∀ s : String,
        parseFloat ((pyStrip s.data).filter fun c => c ≠ ',') = none →
        to_number (Cell.str s) = 0) ∧
    to_number Cell.na = 0 ∧
    (∀ q : ℚ, to_number (Cell.num q) = q) := by
  refine ⟨?_, ?_, rfl, fun q => rfl⟩
  · intro s q h
    simp only [to_number]
    by_cases ht : pyStrip s.data = []
    · rw [ht] at h
      simp [parseFloat] at h
    · simp only [ht, if_neg, ite_false]
      rw [h]
  · intro s h
    simp only [to_number]
    by_cases ht : pyStrip s.data = []
    · simp [ht]
    · simp only [ht, if_neg, ite_false]
      rw [h]

/-- Structural evaluation of the parser on "1234.5" (the comma-stripped form
of "1,234.5"); the rational value is then identified by norm_num. -/
theorem parseFloat_example :
    parseFloat ((pyStrip ("1,234.5" : String).data).filter fun c => c ≠ ',') =
      some (1234.5 : ℚ) := by
  have h : parseFloat ((pyStrip ("1,234.5" : String).data).filter fun c => c ≠ ',') =
      some ((1 : ℚ) * ((digitsToNat ['1', '2', '3', '4'] : ℚ)
        + (digitsToNat ['5'] : ℚ) / (10 : ℚ) ^ 1) * (10 : ℚ) ^ (0 : ℤ)) := rfl
  rw [h]
  have d1 : digitsToNat ['1', '2', '3', '4'] = 1234 := rfl
  have d2 : digitsToNat ['5'] = 5 := rfl
  rw [d1, d2]
  norm_num

theorem c6_amended_witness :
    parseFloat ((pyStrip ("1,234.5" : String).data).filter fun c => c ≠ ',') = some (1234.5 : ℚ) ∧
    to_number (Cell.str "1,234.5") = (1234.5 : ℚ) :=
  ⟨parseFloat_example, c6_amended.1 "1,234.5" (1234.5 : ℚ) parseFloat_example⟩

/-- C8 counterexample: the convergence check uses a strict comparison, so
corrected totals whose difference is exactly 1e-6 are reported MISMATCH, not
MATCH as the claim states. -/
theorem c8_counterexample :
    match_status 0 (1 / 1000000) = "MISMATCH" ∧
    |(0 : ℚ) - 1 / 1000000| ≤ 1 / 1000000 := by
  have habs : |(0 : ℚ) - 1 / 1000000| = 1 / 1000000 := by
    rw [zero_sub, abs_neg, abs_of_nonneg]
    norm_num
  constructor
  · unfold match_status
    rw [if_neg]
    rw [habs]
    simp
  · rw [habs]

/-- C8 amended: the convergence check reports MATCH exactly when the absolute
difference of the corrected totals is strictly less than 1e-6, and MISMATCH
exactly when it is at least 1e-6; a difference of exactly 1e-6 is MISMATCH. -/
theorem c8_amended (a b : ℚ) :
    (match_status a b = "MATCH" ↔ |a - b| < 1 / 1000000) ∧
    (match_status a b = "MISMATCH" ↔ 1 / 1000000 ≤ |a - b|) := by
  have hne : ("MATCH" : String) ≠ "MISMATCH" := by decide
  unfold match_status
  split_ifs with h
  · exact ⟨⟨fun _ => h, fun _ => rfl⟩,
      ⟨fun he => absurd he hne, fun hle => absurd h (not_lt.mpr hle)⟩⟩
  · exact ⟨⟨fun he => absurd he.symm hne, fun hlt => absurd hlt h⟩,
      ⟨fun _ => not_lt.mp h, fun _ => rfl⟩⟩

/-!
## Normalized rows and aggregation (streamlit_app.py, lines 285-293)

PlxRow models a row of the normalized ProLogistix table (EID already passed
through normalize_eid, hence digits-only or empty); CresRow models a row of
the normalized Crescent table (EID extracted from the badge and normalized).
The per-day split columns and the EID_Valid / Last3 columns are not read by
detect_discrepancies and are omitted.
-/

structure PlxRow where
  eid : String
  name : String
  regHours : ℚ
  otHours : ℚ
  totalHours : ℚ
deriving DecidableEq

structure CresRow where
  badge : String
  eid : String
  line : String
  name : String
  payableHours : ℚ
deriving DecidableEq

structure PlxAgg where
  eid : String
  name : String
  regHours : ℚ
  otHours : ℚ
  totalHours : ℚ
deriving DecidableEq

structure CresAgg where
  eid : String
  payableHours : ℚ
deriving DecidableEq

/-- Grouping key of summarize_plx: the pair (EID, Name). -/
def plxKey (r : PlxRow) : String × String := (r.eid, r.name)

/-- One aggregated PLX row for a given (EID, Name) group. -/
def plxBuild (plx : List PlxRow) (k : String × String) : PlxAgg :=
  { eid := k.1
    name := k.2
    regHours := qsum ((plx.filter fun r => plxKey r = k).map fun r => r.regHours)
    otHours := qsum ((plx.filter fun r => plxKey r = k).map fun r => r.otHours)
    totalHours := qsum ((plx.filter fun r => plxKey r = k).map fun r => r.totalHours) }

/-- streamlit_app.py summarize_plx: groupby on the pair (EID, Name) — not on
EID alone — summing the three hour columns.  Rows with empty EID are not
excluded. -/
def summarize_plx (plx : List PlxRow) : List PlxAgg :=
  (dedupKeys (plx.map plxKey)).map (plxBuild plx)

/-- One aggregated Crescent row for a given EID, over the valid (non-empty
EID) rows. -/
def cresBuild (valid : List CresRow) (e : String) : CresAgg :=
  { eid := e
    payableHours := qsum ((valid.filter fun r => r.eid = e).map fun r => r.payableHours) }

/-- streamlit_app.py summarize_crescent: keep rows with non-empty EID and
groupby EID, summing Payable_Hours. -/
def summarize_crescent (cres : List CresRow) : List CresAgg :=
  (dedupKeys ((cres.filter fun r => r.eid ≠ "").map fun r => r.eid)).map
    (cresBuild (cres.filter fun r => r.eid ≠ ""))

structure DiscRec where
  eid : String
  namePlx : Option String
  nameCres : Option String
  badge : Option String
  line : Option String
  plxHours : ℚ
  cresHours : ℚ
  diff : ℚ
  category : String
  dayOfWeek : Option String
  status : Option String
  notes : Option String
deriving DecidableEq

def pyOr (a b : Option String) : Option String :=
  match a with
  | none => none
  | some "" => b
  | some s => some s

def rendS (o : Option String) : String :=
  match o with
  | none => "nan"
  | some s => s

def gfmt (q : ℚ) : String := toString q

def optG (o : Option ℚ) : String :=
  match o with
  | none => "nan"
  | some q => gfmt q

/-- Rows qualifying for a client email line: Action is Crescent Error or PLX
Error and CorrectHours is set. -/
def qualifies (r : ReviewRow) : Bool :=
  (r.action = "Crescent Error" ∨ r.action = "PLX Error") ∧ r.correctHours ≠ none

def emailLine (hasLineCol : Bool) (idx : ℕ) (r : ReviewRow) : String :=
  let nm := rendS (pyOr r.name (some "(Name N/A)"))
  let lv := if hasLineCol ∧ r.lineVal ≠ none then rendS r.lineVal else "N/A"
  let bd := rendS (pyOr (pyOr r.badge r.last3) (some "N/A"))
  let co := optG r.correctHours
  let inc := if r.action = "Crescent Error" then optG r.payableHours else optG r.excelHours
  toString idx ++ ". " ++ nm ++ " - Worked Line " ++ lv ++ " for " ++ co
    ++ " (correct hours), not " ++ inc ++ " (incorrect hours).\n[" ++ bd ++ "]"

/-- The emitted lines: the source loop appends a line and increments the
counter exactly on qualifying rows, which is the enumeration of the filtered
list. -/
def emailLines (hasLineCol : Bool) (df : List ReviewRow) : List String :=
  (df.filter qualifies).enum.map fun p => emailLine hasLineCol (p.1 + 1) p.2

def build_email_lines (hasLineCol : Bool) (df : List ReviewRow) : String :=
  match emailLines hasLineCol df with
  | [] => "(No corrections entered.)"
  | ls => String.intercalate "\n\n" ls

/-- Python format .2f on the exact rational (see module comment). -/
def fmt2 (q : ℚ) : String :=
  let m : ℤ := ⌊q * 100 + 1 / 2⌋
  if m < 0 then
    "-" ++ toString (-m / 100) ++ "."
      ++ (if -m % 100 < 10 then "0" else "") ++ toString (-m % 100)
  else
    toString (m / 100) ++ "."
      ++ (if m % 100 < 10 then "0" else "") ++ toString (m % 100)

def clientLine (r : DiscRec) : String :=
  let nm := rendS (pyOr (pyOr r.namePlx r.nameCres) (some "Associate"))
  let ln := pyStripStr (rendS (pyOr r.line (some "")))
  let bd := pyOr r.badge (some "")
  let segLine := if ln ≠ "" then " - Worked Line " ++ ln else ""
  let segBadge :=
    match bd with
    | some "" => ""
    | some s => " [" ++ s ++ "]"
    | none => " [nan]"
  nm ++ segLine ++ " for " ++ fmt2 (to_number (Cell.num r.plxHours))
    ++ " (correct), not " ++ fmt2 (to_number (Cell.num r.cresHours))
    ++ " (incorrect)." ++ segBadge

def clientLines (df : List DiscRec) : List String :=
  (df.filter fun r => r.status = some "Crescent Error").map clientLine

def build_client_summary (df : List DiscRec) : String :=
  pyStripStr (String.intercalate "\n" (clientLines df))

/-- A Mismatched discrepancy row marked Crescent Error by the reviewer.  The
streamlit discrepancy rows carry no override field at all. -/
def c9row : DiscRec :=
  { eid := "7", namePlx := some "Alice", nameCres := some "Alice",
    badge := some "PLX-7-ABC", line := some "3", plxHours := 40, cresHours := 38,
    diff := 2, category := "Mismatched Hours", dayOfWeek := some "",
    status := some "Crescent Error", notes := some "" }

theorem fmt2_forty : fmt2 (40 : ℚ) = "40.00" := by
  have hm : ⌊(40 : ℚ) * 100 + 1 / 2⌋ = (4000 : ℤ) := by
    rw [Int.floor_eq_iff]
    constructor <;> norm_num
  simp only [fmt2]
  rw [hm]
  decide

theorem fmt2_thirtyeight : fmt2 (38 : ℚ) = "38.00" := by
  have hm : ⌊(38 : ℚ) * 100 + 1 / 2⌋ = (3800 : ℤ) := by
    rw [Int.floor_eq_iff]
    constructor <;> norm_num
  simp only [fmt2]
  rw [hm]
  decide

/-- C9 counterexample: build_client_summary emits a line for a row whose
Status is Crescent Error even though no override value exists anywhere in the
streamlit discrepancy table (the row type has no override field), and it
returns the empty string — not a sentinel text — when no row qualifies.  This
refutes the claim that a line is emitted only when a status and an override
are both set. -/
theorem c9_counterexample :
    build_client_summary [c9row] =
      "Alice" ++ " - Worked Line 3" ++ " for " ++ "40.00" ++ " (correct), not "
        ++ "38.00" ++ " (incorrect)." ++ " [PLX-7-ABC]" ∧
    build_client_summary [c9row] ≠ "" ∧
    build_client_summary [] = "" := by
  have hbs : build_client_summary [c9row] = pyStripStr (clientLine c9row) := rfl
  have hline : clientLine c9row =
      "Alice" ++ " - Worked Line 3" ++ " for " ++ fmt2 (40 : ℚ) ++ " (correct), not "
        ++ fmt2 (38 : ℚ) ++ " (incorrect)." ++ " [PLX-7-ABC]" := rfl
  have hmain : build_client_summary [c9row] =
      "Alice" ++ " - Worked Line 3" ++ " for " ++ "40.00" ++ " (correct), not "
        ++ "38.00" ++ " (incorrect)." ++ " [PLX-7-ABC]" := by
    rw [hbs, hline, fmt2_forty, fmt2_thirtyeight]
    rfl
  refine ⟨hmain, ?_, rfl⟩
  rw [hmain]
  decide

/-- C9 amended: build_email_lines emits exactly one line per row whose Action
is Crescent Error or PLX Error with CorrectHours set, and yields the sentinel
text when no row qualifies; build_client_summary emits exactly one line per
row whose Status is Crescent Error — with no override condition — and yields
the empty string when no row qualifies.  Neither generator can fail. -/
theorem c9_amended :
    (∀ (hasL : Bool) (df : List ReviewRow),
        (emailLines hasL df).length = (df.filter qualifies).length) ∧
    (∀ (hasL : Bool) (df : List ReviewRow), df.filter qualifies = [] →
        build_email_lines hasL df = "(No corrections entered.)") ∧
    (∀ df : List DiscRec,
        (clientLines df).length =
          (df.filter fun r => r.status = some "Crescent Error").length) ∧
    (∀ df : List DiscRec, (df.filter fun r => r.status = some "Crescent Error") = [] →
        build_client_summary df = "") := by
  refine ⟨?_, ?_, ?_, ?_⟩
  · intro hasL df
    simp [emailLines, List.enum]
  · intro hasL df h
    have he : emailLines hasL df = [] := by
      simp [emailLines, h]
    simp [build_email_lines, he]
  · intro df
    simp [clientLines]
  · intro df h
    have hc : clientLines df = [] := by
      simp [clientLines, h]
    simp [build_client_summary, hc]
    rfl

theorem c9_amended_witness :
    build_email_lines true [] = "(No corrections entered.)" ∧
    build_client_summary [] = "" :=
  ⟨c9_amended.2.1 true [] rfl, c9_amended.2.2.2 [] rfl⟩

/-!
## Badge extraction (streamlit_app.py, extract_eid_from_badge, lines 58-72)

The strict pattern is the regex PLX-<digits>-<three letters>, anchored on
both sides, case-insensitive, applied to the stripped badge.  On failure, the
fallback is the first regex match of three-or-more digits anywhere in the
stripped badge: the leftmost position at which three consecutive digits
start, matched greedily — equivalently the first maximal digit run of length
at least three.  exactBadge and firstRun3 implement the two regexes on
character lists; the theorems characterize them against declarative
decompositions of the input. -/

/-- Tail of the strict badge pattern after the digit group: a dash and
exactly three ASCII letters, ending the string. -/
def tailOk (tl : List Char) : Bool :=
  match tl with
  | d :: a :: b :: c :: [] => d = '-' && a.isAlpha && b.isAlpha && c.isAlpha
  | _ => false

/-- The anchored case-insensitive match of PLX-<digits>-<three letters>,
returning the digit group. -/
def exactBadge (cs : List Char) : Option (List Char) :=
  match cs with
  | p :: l :: x :: d :: rest =>
    if p.toLower = 'p' ∧ l.toLower = 'l' ∧ x.toLower = 'x' ∧ d = '-' ∧
        rest.takeWhile Char.isDigit ≠ [] ∧ tailOk (rest.dropWhile Char.isDigit) then
      some (rest.takeWhile Char.isDigit)
    else none
  | _ => none

/-- The first run of three or more digits: at the first position whose
character starts a run of at least three digits, return the whole maximal
run; otherwise keep scanning. -/
def firstRun3 : List Char → Option (List Char)
  | [] => none
  | c :: t =>
    if c.isDigit then
      if 3 ≤ (c :: t.takeWhile Char.isDigit).length then some (c :: t.takeWhile Char.isDigit)
      else firstRun3 t
    else firstRun3 t

/-- streamlit_app.py extract_eid_from_badge: the strict pattern yields the
digit group with valid true; otherwise the first 3-plus digit run with valid
false; otherwise the empty identifier with valid false. -/
def extract_eid_from_badge (badge : String) : String × Bool :=
  match exactBadge (pyStrip badge.data) with
  | some ds => (⟨ds⟩, true)
  | none =>
    match firstRun3 (pyStrip badge.data) with
    | some r => (⟨r⟩, false)
    | none => ("", false)

def AllDigits (l : List Char) : Prop := ∀ c ∈ l, c.isDigit = true

instance decAllDigits (l : List Char) : Decidable (AllDigits l) :=
  inferInstanceAs (Decidable (∀ c ∈ l, c.isDigit = true))

/-- Declarative form of the strict badge pattern. -/
def IsExactBadge (cs ds : List Char) : Prop :=
  ∃ p l x a b c : Char,
    cs = p :: l :: x :: '-' :: (ds ++ '-' :: [a, b, c]) ∧
    p.toLower = 'p' ∧ l.toLower = 'l' ∧ x.toLower = 'x' ∧
    ds ≠ [] ∧ AllDigits ds ∧ a.isAlpha = true ∧ b.isAlpha = true ∧ c.isAlpha = true

/-- Declarative form of the fallback: r is an all-digit infix of length at
least three, maximal on the right, and no all-digit infix of length at least
three starts earlier. -/
def FirstRun (cs r : List Char) : Prop :=
  ∃ pre suf, cs = pre ++ r ++ suf ∧ AllDigits r ∧ 3 ≤ r.length ∧
    (∀ c, suf.head? = some c → c.isDigit = false) ∧
    (∀ pre2 r2 suf2, cs = pre2 ++ r2 ++ suf2 → AllDigits r2 → 3 ≤ r2.length →
      pre.length ≤ pre2.length)

theorem of_mem_takeWhile {α : Type} {p : α → Bool} :
    ∀ {l : List α} {a : α}, a ∈ l.takeWhile p → p a = true := by
  intro l
  induction l with
  | nil => intro a h; simp [List.takeWhile] at h
  | cons x t ih =>
    intro a h
    rw [List.takeWhile_cons] at h
    by_cases hx : p x
    · rw [if_pos hx] at h
      rcases List.mem_cons.mp h with rfl | h
      · exact hx
      · exact ih h
    · rw [if_neg hx] at h
      simp at h

theorem takeWhile_append_of_not {α : Type} {p : α → Bool} :
    ∀ (l : List α) (c : α) (r : List α), (∀ a ∈ l, p a = true) → p c = false →
      (l ++ c :: r).takeWhile p = l := by
  intro l
  induction l with
  | nil =>
    intro c r _ hc
    simp [List.takeWhile_cons, hc]
  | cons x t ih =>
    intro c r hall hc
    have hx : p x = true := hall x (List.mem_cons_self _ _)
    simp only [List.cons_append, List.takeWhile_cons, hx, if_pos]
    rw [ih c r (fun a ha => hall a (List.mem_cons_of_mem _ ha)) hc]

theorem dropWhile_append_of_not {α : Type} {p : α → Bool} :
    ∀ (l : List α) (c : α) (r : List α), (∀ a ∈ l, p a = true) → p c = false →
      (l ++ c :: r).dropWhile p = c :: r := by
  intro l
  induction l with
  | nil =>
    intro c r _ hc
    simp [List.dropWhile_cons, hc]
  | cons x t ih =>
    intro c r hall hc
    have hx : p x = true := hall x (List.mem_cons_self _ _)
    simp only [List.cons_append, List.dropWhile_cons, hx, if_pos]
    exact ih c r (fun a ha => hall a (List.mem_cons_of_mem _ ha)) hc

theorem head?_dropWhile_false {α : Type} {p : α → Bool} :
    ∀ (l : List α) (c : α), (l.dropWhile p).head? = some c → p c = false := by
  intro l
  induction l with
  | nil => intro c h; simp [List.dropWhile] at h
  | cons x t ih =>
    intro c h
    rw [List.dropWhile_cons] at h
    by_cases hx : p x
    · rw [if_pos hx] at h
      exact ih c h
    · rw [if_neg hx] at h
      rw [List.head?_cons] at h
      cases Option.some.inj h
      exact Bool.eq_false_iff.mpr hx

/-- A decomposition into an all-true block followed by a suffix that does not
start with a true element is exactly the takeWhile decomposition. -/
theorem eq_takeWhile_of_decomp {α : Type} {p : α → Bool} :
    ∀ (r suf : List α), (∀ a ∈ r, p a = true) →
      (∀ c, suf.head? = some c → p c = false) →
      r = (r ++ suf).takeWhile p := by
  intro r
  induction r with
  | nil =>
    intro suf _ hs
    cases suf with
    | nil => rfl
    | cons c cs =>
      have hc : p c = false := hs c rfl
      simp [List.takeWhile_cons, hc]
  | cons d rr ih =>
    intro suf hall hs
    have hd : p d = true := hall d (List.mem_cons_self _ _)
    simp only [List.cons_append, List.takeWhile_cons, hd, if_pos]
    exact congrArg (d :: ·) (ih suf (fun a ha => hall a (List.mem_cons_of_mem _ ha)) hs)

theorem tailOk_iff (tl : List Char) :
    tailOk tl = true ↔
      ∃ a b c : Char, tl = '-' :: [a, b, c] ∧
        a.isAlpha = true ∧ b.isAlpha = true ∧ c.isAlpha = true := by
  rcases tl with _ | ⟨d, _ | ⟨a, _ | ⟨b, _ | ⟨c, _ | ⟨e, rest⟩⟩⟩⟩⟩ <;>
    (simp [tailOk]; try aesop)

theorem exactBadge_eq_some_iff (cs ds : List Char) :
    exactBadge cs = some ds ↔ IsExactBadge cs ds := by
  constructor
  · intro h
    rcases cs with _ | ⟨p, _ | ⟨l, _ | ⟨x, _ | ⟨d, rest⟩⟩⟩⟩
    · exact absurd h (by simp [exactBadge])
    · exact absurd h (by simp [exactBadge])
    · exact absurd h (by simp [exactBadge])
    · exact absurd h (by simp [exactBadge])
    simp only [exactBadge] at h
    split_ifs at h with hc
    obtain ⟨hp, hl, hx, hd, hne, htl⟩ := hc
    obtain ⟨a, b, c, htl2, ha, hb, hc2⟩ := (tailOk_iff _).mp htl
    obtain rfl : rest.takeWhile Char.isDigit = ds := Option.some.inj h
    subst hd
    refine ⟨p, l, x, a, b, c, ?_, hp, hl, hx, hne, ?_, ha, hb, hc2⟩
    · have hsplit := List.takeWhile_append_dropWhile (p := Char.isDigit) (l := rest)
      rw [htl2] at hsplit
      exact congrArg (fun t => p :: l :: x :: '-' :: t) hsplit.symm
    · intro ch hch
      exact of_mem_takeWhile hch
  · rintro ⟨p, l, x, a, b, c, rfl, hp, hl, hx, hne, hdig, ha, hb, hc2⟩
    have hdash : Char.isDigit '-' = false := rfl
    have htw : (ds ++ '-' :: [a, b, c]).takeWhile Char.isDigit = ds :=
      takeWhile_append_of_not ds '-' [a, b, c] hdig hdash
    have hdw : (ds ++ '-' :: [a, b, c]).dropWhile Char.isDigit = '-' :: [a, b, c] :=
      dropWhile_append_of_not ds '-' [a, b, c] hdig hdash
    simp only [exactBadge, htw, hdw]
    rw [if_pos]
    refine ⟨hp, hl, hx, ?_, hne, (tailOk_iff _).mpr ⟨a, b, c, rfl, ha, hb, hc2⟩⟩
    trivial

theorem firstRun3_eq_some_iff : ∀ cs r : List Char, firstRun3 cs = some r ↔ FirstRun cs r := by
  intro cs
  induction cs with
  | nil =>
    intro r
    constructor
    · intro h
      simp [firstRun3] at h
    · rintro ⟨pre, suf, hcs, -, h3, -, -⟩
      exfalso
      have hlen := congrArg List.length hcs
      simp only [List.length_nil, List.length_append] at hlen
      omega
  | cons c t ih =>
    intro r
    have hccons : ∀ (pre rs : List Char), t = pre ++ rs → c :: t = (c :: pre) ++ rs := by
      intro pre rs h
      rw [List.cons_append, h]
    by_cases hd : c.isDigit
    · by_cases hlen : 3 ≤ (c :: t.takeWhile Char.isDigit).length
      · have heq : firstRun3 (c :: t) = some (c :: t.takeWhile Char.isDigit) := by
          simp only [firstRun3]
          rw [if_pos hd, if_pos hlen]
        have hrunsplit : c :: t = [] ++ ((c :: t.takeWhile Char.isDigit) ++ t.dropWhile Char.isDigit) := by
          simp only [List.nil_append, List.cons_append]
          rw [List.takeWhile_append_dropWhile]
        have hrundig : AllDigits (c :: t.takeWhile Char.isDigit) := by
          intro ch hch
          rcases List.mem_cons.mp hch with rfl | hch
          · exact hd
          · exact of_mem_takeWhile hch
        rw [heq]
        constructor
        · intro h
          obtain rfl : c :: t.takeWhile Char.isDigit = r := Option.some.inj h
          refine ⟨[], t.dropWhile Char.isDigit, hrunsplit, hrundig, hlen, ?_, ?_⟩
          · intro ch hch
            exact head?_dropWhile_false t ch hch
          · intro pre2 r2 suf2 _ _ _
            simp
        · rintro ⟨pre, suf, hcs, hr, h3, hsuf, hmin⟩
          have hpre0 : pre.length ≤ 0 :=
            hmin [] (c :: t.takeWhile Char.isDigit) (t.dropWhile Char.isDigit)
              hrunsplit hrundig hlen
          have hpre : pre = [] := List.length_eq_zero.mp (Nat.le_zero.mp hpre0)
          subst hpre
          rw [List.nil_append] at hcs
          have hrt : r = (c :: t).takeWhile Char.isDigit := by
            have h0 := eq_takeWhile_of_decomp r suf hr hsuf
            rw [← hcs] at h0
            exact h0
          rw [List.takeWhile_cons, if_pos hd] at hrt
          exact congrArg some hrt.symm
      · have heq : firstRun3 (c :: t) = firstRun3 t := by
          simp only [firstRun3]
          rw [if_pos hd, if_neg hlen]
        rw [heq, ih r]
        constructor
        · rintro ⟨pre, suf, hcs, hr, h3, hsuf, hmin⟩
          refine ⟨c :: pre, suf, hccons _ _ hcs, hr, h3, hsuf, ?_⟩
          intro pre2 r2 suf2 hcs2 hr2 h32
          cases pre2 with
          | nil =>
            exfalso
            rw [List.nil_append] at hcs2
            rcases r2 with _ | ⟨a1, _ | ⟨a2, _ | ⟨a3, r2t⟩⟩⟩
            · simp at h32
            · simp at h32
            · simp at h32
            · simp only [List.cons_append] at hcs2
              injection hcs2 with hc1 ht1
              have ha2 : a2.isDigit = true := hr2 a2 (by simp)
              have ha3 : a3.isDigit = true := hr2 a3 (by simp)
              apply hlen
              rw [ht1, List.takeWhile_cons, if_pos ha2, List.takeWhile_cons, if_pos ha3]
              simp only [List.length_cons]
              omega
          | cons c0 pre2' =>
            simp only [List.cons_append] at hcs2
            injection hcs2 with hc1 ht1
            have hle := hmin pre2' r2 suf2 ht1 hr2 h32
            simp only [List.length_cons]
            omega
        · rintro ⟨pre, suf, hcs, hr, h3, hsuf, hmin⟩
          cases pre with
          | nil =>
            exfalso
            rw [List.nil_append] at hcs
            have hrt : r = (c :: t).takeWhile Char.isDigit := by
              have h0 := eq_takeWhile_of_decomp r suf hr hsuf
              rw [← hcs] at h0
              exact h0
            rw [List.takeWhile_cons, if_pos hd] at hrt
            apply hlen
            rw [← hrt]
            exact h3
          | cons c0 pre' =>
            simp only [List.cons_append] at hcs
            injection hcs with hc1 ht1
            refine ⟨pre', suf, ht1, hr, h3, hsuf, ?_⟩
            intro pre2 r2 suf2 ht2 hr2 h32
            have hle := hmin (c :: pre2) r2 suf2 (hccons _ _ ht2) hr2 h32
            simp only [List.length_cons] at hle
            omega
    · have heq : firstRun3 (c :: t) = firstRun3 t := by
        simp only [firstRun3]
        rw [if_neg hd]
      rw [heq, ih r]
      constructor
      · rintro ⟨pre, suf, hcs, hr, h3, hsuf, hmin⟩
        refine ⟨c :: pre, suf, hccons _ _ hcs, hr, h3, hsuf, ?_⟩
        intro pre2 r2 suf2 hcs2 hr2 h32
        cases pre2 with
        | nil =>
          exfalso
          rw [List.nil_append] at hcs2
          rcases r2 with _ | ⟨a1, rr⟩
          · simp at h32
          · simp only [List.cons_append] at hcs2
            injection hcs2 with hc1 ht1
            subst hc1
            exact hd (hr2 c (List.mem_cons_self _ _))
        | cons c0 pre2' =>
          simp only [List.cons_append] at hcs2
          injection hcs2 with hc1 ht1
          have hle := hmin pre2' r2 suf2 ht1 hr2 h32
          simp only [List.length_cons]
          omega
      · rintro ⟨pre, suf, hcs, hr, h3, hsuf, hmin⟩
        cases pre with
        | nil =>
          exfalso
          rw [List.nil_append] at hcs
          rcases r with _ | ⟨a1, rr⟩
          · simp at h3
          · simp only [List.cons_append] at hcs
            injection hcs with hc1 ht1
            subst hc1
            exact hd (hr c (List.mem_cons_self _ _))
        | cons c0 pre' =>
          simp only [List.cons_append] at hcs
          injection hcs with hc1 ht1
          refine ⟨pre', suf, ht1, hr, h3, hsuf, ?_⟩
          intro pre2 r2 suf2 ht2 hr2 h32
          have hle := hmin (c :: pre2) r2 suf2 (hccons _ _ ht2) hr2 h32
          simp only [List.length_cons] at hle
          omega

/-- C5: Secondary-side badge extraction.  On an exact case-insensitive match
of the anchored pattern PLX-<digits>-<three letters> against the stripped
badge, the result is the digit group with valid true; otherwise, if the
stripped badge contains a run of three or more digits, the result is the
first such run with valid false; otherwise the empty identifier with valid
false. -/
theorem c5_badge_extraction (badge : String) :
    (∀ ds, IsExactBadge (pyStrip badge.data) ds →
        extract_eid_from_badge badge = (⟨ds⟩, true)) ∧
    ((¬ ∃ ds, IsExactBadge (pyStrip badge.data) ds) →
      ∀ r, FirstRun (pyStrip badge.data) r →
        extract_eid_from_badge badge = (⟨r⟩, false)) ∧
    ((¬ ∃ ds, IsExactBadge (pyStrip badge.data) ds) →
      (¬ ∃ r, FirstRun (pyStrip badge.data) r) →
        extract_eid_from_badge badge = ("", false)) := by
  refine ⟨?_, ?_, ?_⟩
  · intro ds h
    have hx : exactBadge (pyStrip badge.data) = some ds :=
      (exactBadge_eq_some_iff _ _).mpr h
    simp [extract_eid_from_badge, hx]
  · intro hne r hr
    have hx : exactBadge (pyStrip badge.data) = none := by
      cases h : exactBadge (pyStrip badge.data) with
      | none => rfl
      | some d => exact absurd ⟨d, (exactBadge_eq_some_iff _ _).mp h⟩ hne
    have hf : firstRun3 (pyStrip badge.data) = some r :=
      (firstRun3_eq_some_iff _ _).mpr hr
    simp [extract_eid_from_badge, hx, hf]
  · intro hne hnr
    have hx : exactBadge (pyStrip badge.data) = none := by
      cases h : exactBadge (pyStrip badge.data) with
      | none => rfl
      | some d => exact absurd ⟨d, (exactBadge_eq_some_iff _ _).mp h⟩ hne
    have hf : firstRun3 (pyStrip badge.data) = none := by
      cases h : firstRun3 (pyStrip badge.data) with
      | none => rfl
      | some d => exact absurd ⟨d, (firstRun3_eq_some_iff _ _).mp h⟩ hnr
    simp [extract_eid_from_badge, hx, hf]

theorem c5_badge_extraction_witness :
    extract_eid_from_badge "PLX-123-ABC" = ("123", true) ∧
    IsExactBadge (pyStrip ("PLX-123-ABC" : String).data) ['1', '2', '3'] := by
  have hib : IsExactBadge (pyStrip ("PLX-123-ABC" : String).data) ['1', '2', '3'] := by
    refine ⟨'P', 'L', 'X', 'A', 'B', 'C', rfl, rfl, rfl, rfl, by decide, by decide, rfl, rfl, rfl⟩
  exact ⟨(c5_badge_extraction "PLX-123-ABC").1 ['1', '2', '3'] hib, hib⟩

/-!
## The checker variant (discrepancy_checker.py, build_comparison, lines 51-122)

A raw PLX row carries the File cell (text), the Name cell (already astype
str, never NaN) and the selected-day Reg Hrs cell after
pd.to_numeric(errors = coerce), where none models NaN.  The EID is the first
digit run of the File cell (regex extract of one-or-more digits), NaN when
the cell has no digit; groupby("EID") drops the NaN group, sums Excel Hours
after fillna(0.0) and takes the first Name of each group (pandas groupby
first with no NaN present: the first row in input order, even if empty). -/

structure ChkPlxRow where
  fileText : String
  name : String
  excelHours : Option ℚ
deriving DecidableEq

structure ChkPlxAgg where
  eid : String
  excelHours : ℚ
  name : String
deriving DecidableEq

/-- The leftmost regex match of one-or-more digits: the maximal digit run at
the first digit position. -/
def firstDigitRun (cs : List Char) : Option (List Char) :=
  match cs with
  | [] => none
  | c :: t => if c.isDigit then some (c :: t.takeWhile Char.isDigit) else firstDigitRun t

def chkEid (r : ChkPlxRow) : Option String :=
  (firstDigitRun r.fileText.data).map fun ds => (⟨ds⟩ : String)

def chkWithEid (rows : List ChkPlxRow) : List (String × ChkPlxRow) :=
  rows.filterMap fun r => (chkEid r).map fun e => (e, r)

def chk_plx_grouped (rows : List ChkPlxRow) : List ChkPlxAgg :=
  (dedupKeys ((chkWithEid rows).map fun p => p.1)).map fun e =>
    { eid := e
      excelHours :=
        qsum (((chkWithEid rows).filter fun p => p.1 = e).map fun p => p.2.excelHours.getD 0)
      name :=
        match (chkWithEid rows).filter fun p => p.1 = e with
        | [] => ""
        | p :: _ => p.2.name }

/-!
## Engine fatal paths (discrepancy_checker.py, lines 64-92)

build_comparison raises ValueError — there is no named InputError type
anywhere in the repository — when expected columns are missing.  In source
order: the PLX frame must contain File, Name and the selected-day Reg Hrs
column (lines 64-66); the Crescent frame must contain Badge (lines 79-80).
A call that passes the Badge check then evaluates, on line 83,
cres["Badge"].str.extract(..., flags = re.IGNORECASE) — but the module never
imports re, so this raises NameError unconditionally: build_comparison can
never return, and the Payable-hours check of lines 86-92 (with its
lowercase/strip alternate-name rescue) is dead code.  The original messages
quote column names and the error name; the quotes are omitted here. -/

def strLower (s : String) : String := String.map Char.toLower s

def payableAlts : List String :=
  ["payable hours", "payable_hours", "payablehrs", "payable hr", "payable"]

def payableAlt (cresCols : List String) : List String :=
  cresCols.filter fun c => strLower (pyStripStr c) ∈ payableAlts

def chkPlxMissing (plxCols : List String) (day : String) : List String :=
  ["File", "Name", day ++ " - Reg Hrs"].filter fun c => ¬ c ∈ plxCols

/-- The Payable-hours check of lines 86-92, modelled for completeness: it is
dead code, because the NameError on line 83 fires on every call that reaches
it.  No reachable behaviour of the engine depends on it. -/
def payableHoursCheck (cresCols : List String) : Except String Unit :=
  if "Payable hours" ∈ cresCols then
    Except.ok ()
  else if payableAlt cresCols ≠ [] then
    Except.ok ()
  else
    Except.error "Crescent file must contain a Payable hours column."

/-- The fatal behaviour of build_comparison, in source order: the two
reachable ValueError raises for missing columns, then the unconditional
NameError of line 83.  Every call fails; there is no success value. -/
def build_comparison_check (plxCols cresCols : List String) (day : String) :
    Except String Unit :=
  if chkPlxMissing plxCols day ≠ [] then
    Except.error ("Missing expected PLX columns: "
      ++ String.intercalate ", " (chkPlxMissing plxCols day))
  else if ¬ "Badge" ∈ cresCols then
    Except.error "Crescent file must contain a Badge column."
  else
    Except.error "NameError: name re is not defined"

/-- C7 counterexample: the engine has fatal conditions other than the two the
claim allows, and none of them is a named InputError: a Crescent table
without a Badge column and a PLX table missing its expected columns both
raise ValueError from build_comparison. -/
theorem c7_counterexample :
    build_comparison_check ["File", "Name", "Monday - Reg Hrs"] ["Payable hours"] "Monday" =
      Except.error "Crescent file must contain a Badge column." ∧
    build_comparison_check [] ["Badge", "Payable hours"] "Monday" =
      Except.error "Missing expected PLX columns: File, Name, Monday - Reg Hrs" := by
  constructor
  · rfl
  · rfl

/-- C7 amended: every invocation of build_comparison is fatal, and none of
the failures is a named InputError.  If a PLX column (File, Name or the
selected-day Reg Hrs) is missing it raises the missing-columns ValueError;
otherwise, if the Badge column is missing, the Badge ValueError; otherwise
it raises NameError unconditionally on line 83 (re.IGNORECASE with re never
imported), so build_comparison never returns and the Payable-hours ValueError
of line 92 is unreachable.  Absence of the raw tables is handled by the
caller without invoking the engine. -/
theorem c7_amended (plxCols cresCols : List String) (day : String) :
    (chkPlxMissing plxCols day ≠ [] →
      build_comparison_check plxCols cresCols day =
        Except.error ("Missing expected PLX columns: "
          ++ String.intercalate ", " (chkPlxMissing plxCols day))) ∧
    (chkPlxMissing plxCols day = [] → ¬ "Badge" ∈ cresCols →
      build_comparison_check plxCols cresCols day =
        Except.error "Crescent file must contain a Badge column.") ∧
    (chkPlxMissing plxCols day = [] → "Badge" ∈ cresCols →
      build_comparison_check plxCols cresCols day =
        Except.error "NameError: name re is not defined") ∧
    (∀ u : Unit, build_comparison_check plxCols cresCols day ≠ Except.ok u) := by
  refine ⟨?_, ?_, ?_, ?_⟩
  · intro h1
    unfold build_comparison_check
    rw [if_pos h1]
  · intro h1 h2
    unfold build_comparison_check
    rw [if_neg fun hA => hA h1, if_pos h2]
  · intro h1 h2
    unfold build_comparison_check
    rw [if_neg fun hA => hA h1, if_neg (not_not_intro h2)]
  · intro u
    unfold build_comparison_check
    split_ifs <;> simp

theorem c7_amended_witness :
    build_comparison_check ["File", "Name", "Monday - Reg Hrs"] ["Badge"] "Monday" =
      Except.error "NameError: name re is not defined" ∧
    build_comparison_check ["File", "Name", "Monday - Reg Hrs"] ["Badge"] "Monday" ≠
      Except.ok () :=
  ⟨(c7_amended ["File", "Name", "Monday - Reg Hrs"] ["Badge"] "Monday").2.2.1
      rfl (by decide),
    (c7_amended ["File", "Name", "Monday - Reg Hrs"] ["Badge"] "Monday").2.2.2 ()⟩

/-- Decomposition of the first element of a filtered filterMap: it comes from
the first input element that maps to a value satisfying the predicate. -/
theorem filter_filterMap_head_decomp {α β : Type} (f : α → Option β) (q : β → Bool) :
    ∀ (l : List α) (b : β) (bs : List β),
      (l.filterMap f).filter q = b :: bs →
      ∃ pre x post, l = pre ++ x :: post ∧ f x = some b ∧ q b = true ∧
        ∀ y ∈ pre, ∀ b2, f y = some b2 → q b2 = false := by
  intro l
  induction l with
  | nil =>
    intro b bs h
    simp at h
  | cons a t ih =>
    intro b bs h
    cases hfa : f a with
    | none =>
      simp only [List.filterMap_cons, hfa] at h
      obtain ⟨pre, x, post, hl, hfx, hqb, hpre⟩ := ih b bs h
      refine ⟨a :: pre, x, post, by rw [List.cons_append, hl], hfx, hqb, ?_⟩
      intro y hy b2 hb2
      rcases List.mem_cons.mp hy with rfl | hy
      · rw [hfa] at hb2
        exact absurd hb2 (by simp)
      · exact hpre y hy b2 hb2
    | some fb =>
      simp only [List.filterMap_cons, hfa, List.filter_cons] at h
      by_cases hq : q fb
      · rw [if_pos hq] at h
        injection h with h1 h2
        subst h1
        exact ⟨[], a, t, rfl, hfa, hq, by simp⟩
      · rw [if_neg hq] at h
        obtain ⟨pre, x, post, hl, hfx, hqb, hpre⟩ := ih b bs h
        refine ⟨a :: pre, x, post, by rw [List.cons_append, hl], hfx, hqb, ?_⟩
        intro y hy b2 hb2
        rcases List.mem_cons.mp hy with rfl | hy
        · rw [hfa] at hb2
          cases Option.some.inj hb2
          exact Bool.eq_false_iff.mpr hq
        · exact hpre y hy b2 hb2

theorem summarize_plx_keys (plx : List PlxRow) :
    ((summarize_plx plx).map fun a => (a.eid, a.name)) = dedupKeys (plx.map plxKey) := by
  simp only [summarize_plx, List.map_map]
  have h : ((fun a : PlxAgg => (a.eid, a.name)) ∘ plxBuild plx) = id := by
    funext k
    rfl
  rw [h, List.map_id]

theorem summarize_crescent_keys (cres : List CresRow) :
    ((summarize_crescent cres).map fun c => c.eid) =
      dedupKeys ((cres.filter fun r => r.eid ≠ "").map fun r => r.eid) := by
  simp only [summarize_crescent, List.map_map]
  have h : ((fun c : CresAgg => c.eid) ∘ cresBuild (cres.filter fun r => r.eid ≠ "")) = id := by
    funext e
    rfl
  rw [h, List.map_id]

theorem chk_plx_grouped_keys (rows : List ChkPlxRow) :
    ((chk_plx_grouped rows).map fun g => g.eid) =
      dedupKeys ((chkWithEid rows).map fun p => p.1) := by
  simp only [chk_plx_grouped, List.map_map]
  exact (List.map_congr_left fun e _ => rfl).trans (List.map_id _)

/-- C4 counterexample: summarize_plx groups on the pair (EID, Name), so one
identifier with two different names yields two aggregated rows within one
source; and the checker grouping takes the first name of the group even when
it is empty and a later name is not. -/
theorem c4_counterexample :
    ((summarize_plx [⟨"123", "A", 1, 0, 1⟩, ⟨"123", "B", 2, 0, 2⟩]).map fun a => a.eid)
        = ["123", "123"] ∧
    ((chk_plx_grouped [⟨"5", "", some 1⟩, ⟨"5", "Bob", some 2⟩]).map fun g => g.name)
        = [""] := by
  constructor
  · rfl
  · rfl

/-- C4 amended: summarize_plx produces exactly one row per distinct
(identifier, name) pair — including pairs with empty identifier — summing
the hour columns over the pair group, so an identifier borne by rows with
different names yields several aggregated rows; summarize_crescent produces
exactly one row per distinct non-empty identifier, summing Payable_Hours;
the checker PLX grouping produces exactly one row per distinct extracted
identifier (rows without digits in the File cell are dropped) and its name is
the name of the first row of the group in input order, not the first
non-empty name. -/
theorem c4_amended :
    (∀ plx : List PlxRow,
        (((summarize_plx plx).map fun a => (a.eid, a.name))).Nodup ∧
        (∀ a ∈ summarize_plx plx, ∃ r ∈ plx, r.eid = a.eid ∧ r.name = a.name) ∧
        (∀ r ∈ plx, ∃ a ∈ summarize_plx plx, a.eid = r.eid ∧ a.name = r.name) ∧
        (∀ a ∈ summarize_plx plx,
          a.regHours =
            qsum ((plx.filter fun r => plxKey r = (a.eid, a.name)).map fun r => r.regHours) ∧
          a.otHours =
            qsum ((plx.filter fun r => plxKey r = (a.eid, a.name)).map fun r => r.otHours) ∧
          a.totalHours =
            qsum ((plx.filter fun r => plxKey r = (a.eid, a.name)).map fun r => r.totalHours))) ∧
    (∀ cres : List CresRow,
        ((summarize_crescent cres).map fun c => c.eid).Nodup ∧
        (∀ c ∈ summarize_crescent cres,
          c.eid ≠ "" ∧ (∃ r ∈ cres, r.eid = c.eid) ∧
          c.payableHours =
            qsum (((cres.filter fun r => r.eid ≠ "").filter fun r => r.eid = c.eid).map
              fun r => r.payableHours)) ∧
        (∀ r ∈ cres, r.eid ≠ "" → ∃ c ∈ summarize_crescent cres, c.eid = r.eid)) ∧
    (∀ rows : List ChkPlxRow,
        ((chk_plx_grouped rows).map fun g => g.eid).Nodup ∧
        (∀ g ∈ chk_plx_grouped rows,
          ∃ pre x post, rows = pre ++ x :: post ∧ chkEid x = some g.eid ∧
            g.name = x.name ∧ ∀ y ∈ pre, chkEid y ≠ some g.eid)) := by
  refine ⟨fun plx => ⟨?_, ?_, ?_, ?_⟩, fun cres => ⟨?_, ?_, ?_⟩, fun rows => ⟨?_, ?_⟩⟩
  · rw [summarize_plx_keys]
    exact dedupKeys_nodup _
  · intro a ha
    obtain ⟨k, hk, rfl⟩ := List.mem_map.mp ha
    obtain ⟨r, hr, hkey⟩ := List.mem_map.mp (dedupKeys_subset _ _ hk)
    exact ⟨r, hr, congrArg Prod.fst hkey, congrArg Prod.snd hkey⟩
  · intro r hr
    refine ⟨plxBuild plx (plxKey r), List.mem_map.mpr
      ⟨plxKey r, mem_dedupKeys _ _ (List.mem_map.mpr ⟨r, hr, rfl⟩), rfl⟩, rfl, rfl⟩
  · intro a ha
    obtain ⟨k, -, rfl⟩ := List.mem_map.mp ha
    exact ⟨rfl, rfl, rfl⟩
  · rw [summarize_crescent_keys]
    exact dedupKeys_nodup _
  · intro c hc
    obtain ⟨e, he, rfl⟩ := List.mem_map.mp hc
    obtain ⟨r, hr, hkey⟩ := List.mem_map.mp (dedupKeys_subset _ _ he)
    have hrv := List.mem_filter.mp hr
    refine ⟨?_, ⟨r, hrv.1, hkey⟩, rfl⟩
    rw [show (cresBuild _ e).eid = e from rfl, ← hkey]
    exact of_decide_eq_true hrv.2
  · intro r hr hne
    refine ⟨cresBuild (cres.filter fun r => r.eid ≠ "") r.eid, List.mem_map.mpr
      ⟨r.eid, mem_dedupKeys _ _ (List.mem_map.mpr
        ⟨r, List.mem_filter.mpr ⟨hr, by simpa using hne⟩, rfl⟩), rfl⟩, rfl⟩
  · rw [chk_plx_grouped_keys]
    exact dedupKeys_nodup _
  · intro g hg
    obtain ⟨e, he, rfl⟩ := List.mem_map.mp hg
    obtain ⟨p, hp, hpe⟩ := List.mem_map.mp (dedupKeys_subset _ _ he)
    have hpmem : p ∈ (chkWithEid rows).filter fun p => p.1 = e :=
      List.mem_filter.mpr ⟨hp, by simpa using hpe⟩
    rcases hfil : (chkWithEid rows).filter fun p => p.1 = e with _ | ⟨b, bs⟩
    · rw [hfil] at hpmem
      exact absurd hpmem (by simp)
    · obtain ⟨pre, x, post, hrows, hfx, hqb, hpre⟩ :=
        filter_filterMap_head_decomp _ _ rows b bs hfil
      obtain ⟨e2, he2, hpair⟩ := Option.map_eq_some'.mp hfx
      have hbe : b.1 = e := of_decide_eq_true hqb
      have he2e : e2 = e := by
        rw [← hbe, ← hpair]
      refine ⟨pre, x, post, hrows, ?_, ?_, ?_⟩
      · rw [show (⟨e, _, _⟩ : ChkPlxAgg).eid = e from rfl]
        rw [← he2e] at *
        exact he2
      · rw [show (⟨e, _, _⟩ : ChkPlxAgg).name = _ from rfl]
        simp only [hfil]
        rw [← hpair]
      · intro y hy hcy
        have hfy : (fun r => (chkEid r).map fun e' => (e', r)) y = some (e, y) := by
          show (chkEid y).map (fun e' => (e', y)) = some (e, y)
          rw [hcy]
          rfl
        have := hpre y hy (e, y) hfy
        simp at this

/-!
## C10 support: detect_discrepancies ignores Primary rows with empty EID
-/

theorem c4_amended_witness :
    ∃ r ∈ ([⟨"123", "A", 1, 0, 1⟩] : List PlxRow),
      r.eid = (plxBuild [⟨"123", "A", 1, 0, 1⟩] ("123", "A")).eid ∧
      r.name = (plxBuild [⟨"123", "A", 1, 0, 1⟩] ("123", "A")).name := by
  have hmem : plxBuild [⟨"123", "A", 1, 0, 1⟩] ("123", "A") ∈
      summarize_plx [⟨"123", "A", 1, 0, 1⟩] := by
    rw [show summarize_plx [⟨"123", "A", 1, 0, 1⟩]
        = [plxBuild [⟨"123", "A", 1, 0, 1⟩] ("123", "A")] from rfl]
    exact List.mem_singleton.mpr rfl
  exact (c4_amended.1 [⟨"123", "A", 1, 0, 1⟩]).2.1 _ hmem
